import Mathlib

/-!
A shallow embedding of `porcupine/plugins/directory_tree.py`: the git status
probe (`run_git_status`), the per-child git tag computation and directory
aggregation inside `open_and_refresh_directory`, the tree reconciliation
itself, the sorting key (`sorting_key`), the project registry
(`add_project` / `hide_old_projects`) and the refresh completion callback
of `refresh_everything`.

Modelling conventions:
* An absolute `pathlib.Path` is the list of its components after the
  filesystem root, so `path.parents` are the proper ancestor component
  lists and `/` is `[]`.
* The Python dicts (`StatusMap`, `git_statuses`) are insertion-ordered
  association lists with dict-style overwriting insertion; keys are unique
  in every state the program builds, so first-match lookup is dict lookup.
* The closed string sets of tags (`git_added` .. `git_ignored`) are the
  enumeration `GStat`; a tree item's set of tags is represented by its
  `dir`/`file` kind together with the list of its `git_*` tags (the code
  asserts this list has at most one element when sorting).
* Recursion over the mutable Treeview is replaced by pure functions from
  the old child list to the new child list plus a log of the mutation
  events (insertions, deletions, tag writes) the code performs; the
  unconditional `self.move` calls are represented by the order of the
  returned list.
-/

namespace Porcupine

/-- Absolute filesystem path: its components after the root (`/` is `[]`).
`pathlib`'s `path.parents` enumerates the proper ancestor component lists,
nearest parent first. -/
abbrev Path := List String

/-- The closed enumeration of git status tags used by the directory tree,
standing for the source's strings `git_added`, `git_modified`,
`git_mergeconflict`, `git_untracked`, `git_ignored`. -/
inductive GStat where
  | added
  | modified
  | mergeconflict
  | untracked
  | ignored
deriving DecidableEq, Repr

/-- A project's status map: the insertion-ordered dict from absolute path to
git status tag built by `run_git_status`. -/
abbrev StatusMap := List (Path × GStat)

/-- Dict lookup (`path in git_status` / `git_status[path]`). The maps the
program builds have unique keys, so first match is dict lookup. -/
def lookupStatus (m : StatusMap) (p : Path) : Option GStat :=
  (m.find? (fun e => decide (e.1 = p))).map (·.2)

/-- Python dict assignment `result[path] = status`: overwrite the existing
entry in place, otherwise append at the end (dicts preserve insertion
order). -/
def dictInsert (m : StatusMap) (k : Path) (v : GStat) : StatusMap :=
  if m.any (fun e => decide (e.1 = k)) then
    m.map (fun e => if e.1 = k then (k, v) else e)
  else m ++ [(k, v)]

/-! ### run_git_status -/

/-- Classification of one `git status --ignored --porcelain` output line,
mirroring the source's if/elif chain exactly and in order: `line[1] == 'M'`
first, then `line[1] == ' '`, then the two-character codes `??`, `!!`,
`AA`/`UU`; anything else is logged and skipped (`none`).  Lines shorter
than two characters do not occur in porcelain output (`line[1]` would
raise in the source) and are mapped to `none`. -/
def classify_line : List Char → Option GStat
  | c0 :: c1 :: _ =>
    if c1 = 'M' then some .modified
    else if c1 = ' ' then some .added
    else if c0 = '?' ∧ c1 = '?' then some .untracked
    else if c0 = '!' ∧ c1 = '!' then some .ignored
    else if (c0 = 'A' ∧ c1 = 'A') ∨ (c0 = 'U' ∧ c1 = 'U') then some .mergeconflict
    else none
  | _ => none

/-- Split a character list at `/` separators (the components of a posix
relative path, as `str.split('/')` would produce them). -/
def split_path_aux : List Char → List Char → List String
  | [], acc => [String.mk acc.reverse]
  | c :: rest, acc =>
    if c = '/' then String.mk acc.reverse :: split_path_aux rest []
    else split_path_aux rest (c :: acc)

/-- `project_root / line[3:]`: the two status characters and the following
separator are dropped and the remaining relative path is appended to the
project root (posix separators; `pathlib` drops empty components such as
the one produced by a trailing slash). -/
def line_path (root : Path) (l : List Char) : Path :=
  root ++ (split_path_aux (l.drop 3) []).filter (fun s => decide (s ≠ ""))

/-- The parse loop of `run_git_status` on decoded stdout lines, for a run
whose exit status was zero: the result dict is seeded with
`project_root / '.git' ↦ git_ignored` ("Show .git as ignored, even though
it actually isn't") and then every classified line is inserted. -/
def run_git_status_lines (root : Path) (lines : List String) : StatusMap :=
  lines.foldl
    (fun m line =>
      match classify_line line.data with
      | some st => dictInsert m (line_path root line.data) st
      | none => m)
    [(root ++ [".git"], GStat.ignored)]

/-- `run_git_status`: `ok` is true when the subprocess could be launched,
its output decoded and its exit status was zero; otherwise the empty map is
returned. -/
def run_git_status (ok : Bool) (root : Path) (lines : List String) : StatusMap :=
  if ok then run_git_status_lines root lines else []

/-- Claim-side classifier, written per the amended C2 wording as a table of
independent patterns: `??` is Untracked, `!!` is Ignored, exactly `AA` or
`UU` is MergeConflict, a second character `M` is Modified, a second
character space is Added (whatever the first character), anything else is
skipped. -/
def claim_classify : List Char → Option GStat
  | c0 :: c1 :: _ =>
    if c0 = '?' ∧ c1 = '?' then some .untracked
    else if c0 = '!' ∧ c1 = '!' then some .ignored
    else if (c0 = 'A' ∧ c1 = 'A') ∨ (c0 = 'U' ∧ c1 = 'U') then some .mergeconflict
    else if c1 = 'M' then some .modified
    else if c1 = ' ' then some .added
    else none
  | _ => none

/-- Claim-side map for C2: classify every line per `claim_classify`, on top
of a map pre-seeded with the version-control metadata directory
`root/.git ↦ Ignored`. -/
def claim_status_map (root : Path) (lines : List String) : StatusMap :=
  lines.foldl
    (fun m line =>
      match claim_classify line.data with
      | some st => dictInsert m (line_path root line.data) st
      | none => m)
    [(root ++ [".git"], GStat.ignored)]

/-! ### Ancestor chain and per-child git tag computation -/

/-- The `relevant_parents` list of `open_and_refresh_directory`: the child
path itself, then its successive parents, stopping at (and including) the
first path that is a project root.  The fuel argument is the component
count, which bounds the number of parent steps; the filesystem root `[]`
terminates the walk like the exhausted `parent_iterator` of the source
(which only happens for paths outside every project root). -/
def relevant_parents_fuel (roots : List Path) : Nat → Path → List Path
  | 0, p => [p]
  | n + 1, p =>
    if p ∈ roots ∨ p = [] then [p]
    else p :: relevant_parents_fuel roots n p.dropLast

def relevant_parents (roots : List Path) (p : Path) : List Path :=
  relevant_parents_fuel roots p.length p

/-- The last element of `relevant_parents`: the project root whose
`StatusMap` is consulted for this child (`relevant_parents[-1]`). -/
def project_root_of_fuel (roots : List Path) : Nat → Path → Path
  | 0, p => p
  | n + 1, p =>
    if p ∈ roots ∨ p = [] then p
    else project_root_of_fuel roots n p.dropLast

def project_root_of (roots : List Path) (p : Path) : Path :=
  project_root_of_fuel roots p.length p

/-- `self.git_statuses[root]`; the key is always present when the callback
installed the statuses for the current project set, so the default `[]`
for a missing key is never observed. -/
def lookupGS (gs : List (Path × StatusMap)) (root : Path) : StatusMap :=
  ((gs.find? (fun e => decide (e.1 = root))).map (·.2)).getD []

/-- `p` is a proper ancestor of `q`, i.e. `p in q.parents`.  The source
additionally tests `str(subpath).startswith(str(child_path))`, which its
comment marks as an optimization: it is implied by the parents test. -/
def isProperAncestor (p q : Path) : Bool :=
  decide (p.length < q.length) && decide (q.take p.length = p)

/-- The `child_tags` set of `open_and_refresh_directory`: the statuses of
status map entries at proper descendants of the child path, pre-filtered
to `{git_added, git_modified, git_mergeconflict}`; a Python set of
statuses, so deduplicated and order-irrelevant. -/
def childTags (m : StatusMap) (child : Path) : List GStat :=
  ((m.filter (fun e =>
      decide (e.2 = GStat.added ∨ e.2 = GStat.modified ∨ e.2 = GStat.mergeconflict)
        && isProperAncestor child e.1)).map (·.2)).dedup

/-- The set of `git_*` tags `open_and_refresh_directory` computes for one
child: walk `relevant_parents` and adopt the first direct entry found
(`break`); otherwise aggregate over descendant entries: MergeConflict if
present, else Modified if present, else the remaining `child_tags` set
(whose size the source asserts to be at most one). -/
def compute_git_tags (gs : List (Path × StatusMap)) (roots : List Path) (child : Path) :
    List GStat :=
  let m := lookupGS gs (project_root_of roots child)
  match (relevant_parents roots child).findSome? (fun q => lookupStatus m q) with
  | some st => [st]
  | none =>
    let ct := childTags m child
    if GStat.mergeconflict ∈ ct then [GStat.mergeconflict]
    else if GStat.modified ∈ ct then [GStat.modified]
    else ct

/-- Claim-side aggregation for the amended C1: over the statuses of all
descendant entries, MergeConflict wins, then Modified, then Added; with
none of the three present the directory gets no git tag. -/
def claim_aggregate (m : StatusMap) (child : Path) : List GStat :=
  let ds := (m.filter (fun e => isProperAncestor child e.1)).map (·.2)
  if GStat.mergeconflict ∈ ds then [GStat.mergeconflict]
  else if GStat.modified ∈ ds then [GStat.modified]
  else if GStat.added ∈ ds then [GStat.added]
  else []

/-! ### The tree model -/

/-- One Treeview item: either the `(empty)` placeholder row (tag `dummy`)
or a real row, carrying its path value, its `dir`/`file` tag, its list of
`git_*` tags and its list of children. -/
inductive Item where
  | dummy : Item
  | node (path : Path) (isDir : Bool) (git : List GStat) (kids : List Item) : Item
deriving Repr

def Item.isDummy : Item → Bool
  | .dummy => true
  | .node _ _ _ _ => false

/-- Structural size of a forest, used as recursion fuel: any value from
`itemsSize kids` upward makes `open_and_refresh_directory_fuel` run to
completion. -/
def itemsSize : List Item → Nat
  | [] => 1
  | .dummy :: rest => 2 + itemsSize rest
  | .node _ _ _ k :: rest => 2 + itemsSize k + itemsSize rest

/-- The fields of a real row; `none` for the placeholder (whose `get_path`
would fail the source's assertion). -/
def nodeParts : Item → Option (Path × Bool × List GStat × List Item)
  | .dummy => none
  | .node p d g k => some (p, d, g, k)

/-- `_contains_dummy`: exactly one child and it is the placeholder. -/
def containsDummy : List Item → Bool
  | [it] => it.isDummy
  | _ => false

/-- Python set equality of two git tag collections
(`old_tags != new_tags` compares the whole tag sets, but the non-`git_*`
tags of a row never change during a refresh). -/
def listSetEq (a b : List GStat) : Bool :=
  a.all (fun x => decide (x ∈ b)) && b.all (fun x => decide (x ∈ a))

/-- The filesystem as seen through `Path.is_dir` and `Path.iterdir`: the
finite list of existing paths with their is-directory bit. -/
structure FsEntry where
  path : Path
  isDir : Bool
deriving DecidableEq, Repr

abbrev Fs := List FsEntry

def Fs.isDir (fs : Fs) (p : Path) : Bool :=
  ((fs.find? (fun e => decide (e.path = p))).map (·.isDir)).getD false

/-- `set(dir_path.iterdir())`: the immediate entries of `p`
(deduplicated, as a Python set; a real directory listing has no
duplicates). -/
def Fs.iterdir (fs : Fs) (p : Path) : List Path :=
  ((fs.filter (fun e => decide (e.path ≠ []) && decide (e.path.dropLast = p))).map
    (·.path)).dedup

/-- str(path) for the sorting key: posix rendering of an absolute path. -/
def pathStr (p : Path) : String :=
  "/" ++ String.intercalate "/" p

/-- `['git_added', 'git_modified', 'git_mergeconflict', None,
'git_untracked', 'git_ignored'].index(git_tag)`. -/
def gitRank : Option GStat → Nat
  | some .added => 0
  | some .modified => 1
  | some .mergeconflict => 2
  | none => 3
  | some .untracked => 4
  | some .ignored => 5

/-- `sorting_key`: status rank, then 1 for a directory and 2 for a file,
then the path string; compared lexicographically as in Python tuple
comparison.  The git tag is the sole element of the row's `git_*` tag list
(the source asserts there is at most one). -/
def sorting_key (it : Item) : Nat ×ₗ Nat ×ₗ String :=
  match it with
  | .dummy => toLex (0, toLex (0, ""))
  | .node p d g _ => toLex (gitRank g.head?, toLex (if d then 1 else 2, pathStr p))

def keyLE (a b : Item) : Prop := sorting_key a ≤ sorting_key b

instance : DecidableRel keyLE := fun a b =>
  inferInstanceAs (Decidable (sorting_key a ≤ sorting_key b))

instance : IsTotal Item keyLE := ⟨fun a b => le_total (sorting_key a) (sorting_key b)⟩

instance : IsTrans Item keyLE := ⟨fun _ _ _ h1 h2 => le_trans h1 h2⟩

/-- Mutation events of the tree model performed by
`open_and_refresh_directory`: row insertions and deletions (for the
placeholder and for real rows) and tag writes (`self.item(id, tags=...)`,
issued only when the tag set changed).  The final `self.move` calls are
represented by the order of the returned child list. -/
inductive Ev where
  | deleteDummy (parent : Option Path)
  | insertDummy (parent : Option Path)
  | deleteNode (path : Path)
  | insertNode (path : Path)
  | setTags (path : Path) (git : List GStat)
deriving DecidableEq, Repr

/-- The body of the per-child loop of `open_and_refresh_directory` for a
child that already existed (one entry of `path2id` that survived the
diff): compute its new `git_*` tag set, write the tags only when the set
changed, and recurse (`recur`) when the child is a directory that does
not show the placeholder. -/
def process_old (gs : List (Path × StatusMap)) (roots : List Path)
    (recur : Path → List Item → List Item × List Ev)
    (x : Path × Bool × List GStat × List Item) : Item × List Ev :=
  let g2 := compute_git_tags gs roots x.1
  let keep := listSetEq x.2.2.1 g2
  let tagEvs : List Ev := if keep then [] else [Ev.setTags x.1 g2]
  let gStored := if keep then x.2.2.1 else g2
  if x.2.1 && !(containsDummy x.2.2.2) then
    let r := recur x.1 x.2.2.2
    (Item.node x.1 x.2.1 gStored r.1, tagEvs ++ r.2)
  else (Item.node x.1 x.2.1 gStored x.2.2.2, tagEvs)

/-- The per-child loop body for a freshly inserted row: it starts with no
`git_*` tags (so a write happens exactly when the computed set is
nonempty), a new directory gets the placeholder, and no recursion happens
(a new directory shows the placeholder, a new file is not a
directory). -/
def process_new (fs : Fs) (gs : List (Path × StatusMap)) (roots : List Path)
    (q : Path) : Item × List Ev :=
  let d := fs.isDir q
  let g2 := compute_git_tags gs roots q
  let tagEvs : List Ev := if listSetEq [] g2 then [] else [Ev.setTags q g2]
  (Item.node q d g2 (if d then [Item.dummy] else []), tagEvs)

/-- The part of `open_and_refresh_directory` shared by the two kinds of
call (`dir_path` given or `None`): the symmetric difference against the
filesystem listing (`new_paths`), the per-child tag computation and
recursion, and — only when a directory path was given (`doSort`) — the
final reordering of the children by `sorting_key`. -/
def reconcile_cont (fs : Fs) (gs : List (Path × StatusMap)) (roots : List Path)
    (recur : Path → List Item → List Item × List Ev)
    (parts1 : List (Path × Bool × List GStat × List Item)) (startEvs : List Ev)
    (newPaths : List Path) (doSort : Bool) : List Item × List Ev :=
  let oldPaths : List Path := parts1.map (·.1)
  let delEvs := (oldPaths.filter (fun q => decide (q ∉ newPaths))).map Ev.deleteNode
  let addedPaths := newPaths.filter (fun q => decide (q ∉ oldPaths))
  let insEvs := addedPaths.flatMap (fun q =>
    Ev.insertNode q :: (if fs.isDir q then [Ev.insertDummy (some q)] else []))
  let survivors := parts1.filter (fun x => decide (x.1 ∈ newPaths))
  let processedOld := survivors.map (process_old gs roots recur)
  let processedNew := addedPaths.map (process_new fs gs roots)
  let children2 := processedOld.map (·.1) ++ processedNew.map (·.1)
  let childEvs := (processedOld.map (·.2)).flatten ++ (processedNew.map (·.2)).flatten
  let finalKids := if doSort then List.insertionSort keyLE children2 else children2
  (finalKids, startEvs ++ delEvs ++ insEvs ++ childEvs)

/-- One call of `open_and_refresh_directory(dir_path, dir_id)`, with the
recursive calls abstracted as `recur`: drop the placeholder if it is the
sole child, list the directory (or, for the refresh-everything call on
the tree root, keep the current rows and skip the sort).  If the listing
is empty the source inserts the placeholder and returns at once — before
the deletion loop — so any real children the row still had stay in place
next to the fresh placeholder; otherwise run the shared continuation. -/
def reconcile_core (fs : Fs) (gs : List (Path × StatusMap)) (roots : List Path)
    (recur : Path → List Item → List Item × List Ev)
    (dirPath : Option Path) (kids : List Item) : List Item × List Ev :=
  let startEvs : List Ev := if containsDummy kids then [Ev.deleteDummy dirPath] else []
  let kids1 : List Item := if containsDummy kids then [] else kids
  let parts1 := kids1.filterMap nodeParts
  match dirPath with
  | none => reconcile_cont fs gs roots recur parts1 startEvs (parts1.map (·.1)) false
  | some p =>
    let newPaths := fs.iterdir p
    if newPaths = [] then (kids1 ++ [Item.dummy], startEvs ++ [Ev.insertDummy dirPath])
    else reconcile_cont fs gs roots recur parts1 startEvs newPaths true

/-- `open_and_refresh_directory(dir_path, dir_id)`, as a function from the
current child list of the reconciled row to the new child list plus the
mutation events, recursing into every already-materialized child
directory.  The fuel argument only drives the recursion and is irrelevant
from `itemsSize kids` upward. -/
def open_and_refresh_directory_fuel (fs : Fs) (gs : List (Path × StatusMap))
    (roots : List Path) : Nat → Option Path → List Item → List Item × List Ev
  | 0, _, kids => (kids, [])
  | fuel + 1, dirPath, kids =>
    reconcile_core fs gs roots
      (fun q => open_and_refresh_directory_fuel fs gs roots fuel (some q)) dirPath kids

def open_and_refresh_directory (fs : Fs) (gs : List (Path × StatusMap))
    (roots : List Path) (dirPath : Option Path) (kids : List Item) :
    List Item × List Ev :=
  open_and_refresh_directory_fuel fs gs roots (itemsSize kids) dirPath kids

/-! ### Project registry -/

/-- One tracked project row at the tree root, with the snapshots the
eviction check takes of `project_path.is_dir()` and of "some open
`FileTab`'s path lies under this project". -/
structure Project where
  path : Path
  isDir : Bool
  hasOpenDoc : Bool
deriving DecidableEq, Repr

def PROJECT_AUTOCLOSE_COUNT : Nat := 5

/-- The body of `hide_old_projects`: scan the project rows from the last
(least recently used) backwards; delete a row if its path is no longer a
directory, or if the current row count still exceeds the cap and no open
file tab lies under it.  `rest` holds the rows not yet scanned (most
recent first), `kept` the scanned rows that were kept, so the current
count `len(self.get_children(''))` is `rest.length + 1 + kept.length`. -/
def hide_old_projects_aux : List Project → List Project → List Project
  | [], kept => kept
  | p :: rest, kept =>
    if !p.isDir
        || (decide (rest.length + 1 + kept.length > PROJECT_AUTOCLOSE_COUNT)
            && !p.hasOpenDoc) then
      hide_old_projects_aux rest kept
    else hide_old_projects_aux rest (p :: kept)

/-- `hide_old_projects` (which afterwards always persists the resulting
ordered path list into settings). -/
def hide_old_projects (ps : List Project) : List Project :=
  hide_old_projects_aux ps.reverse []

/-- `add_project(root_path)`: if some project row already has this path,
move the first such row to index 0 and return — without calling
`hide_old_projects` (and hence without persisting) and without touching
the row's subtree; otherwise insert a new row at index 0 and run the
eviction check.  The boolean records whether `hide_old_projects` (the
eviction check plus persistence) was triggered. -/
def add_project (ps : List Project) (p : Project) : List Project × Bool :=
  match ps.find? (fun q => decide (q.path = p.path)) with
  | some q => (q :: ps.eraseP (fun q' => decide (q'.path = p.path)), false)
  | none => (hide_old_projects (p :: ps), true)

/-! ### Refresh completion -/

/-- The tree-root state the refresh cycle sees: the Treeview ids of the
project rows, the rows themselves, and the installed per-project status
maps. -/
structure SyncState where
  rootIds : List Nat
  rootItems : List Item
  gitStatuses : List (Path × StatusMap)
deriving Repr

/-- `set(a) == set(b)` on Treeview id lists. -/
def idsSetEq (a b : List Nat) : Bool :=
  a.all (fun x => decide (x ∈ b)) && b.all (fun x => decide (x ∈ a))

/-- The `done_callback` of `refresh_everything`: if the thread succeeded
and the set of project-row ids still equals the snapshot taken at
dispatch, install the freshly fetched status maps and reconcile the whole
forest (`open_and_refresh_directory(None, '')`); otherwise leave the
state untouched (stale results are discarded, a failure is only
logged). -/
def done_callback (fs : Fs) (snapshotIds : List Nat)
    (result : List (Path × StatusMap)) (success : Bool) (st : SyncState) :
    SyncState :=
  if success && idsSetEq st.rootIds snapshotIds then
    let roots := st.rootItems.filterMap (fun it => (nodeParts it).map (·.1))
    { st with
      gitStatuses := result
      rootItems := (open_and_refresh_directory fs result roots none st.rootItems).1 }
  else st

/-! ### Helper lemmas -/

lemma classify_line_eq_claim_classify (l : List Char) :
    classify_line l = claim_classify l := by
  match l with
  | [] => rfl
  | [_] => rfl
  | c0 :: c1 :: rest =>
    simp only [classify_line, claim_classify]
    split_ifs <;> simp_all

lemma lookupStatus_cons (e : Path × GStat) (m : StatusMap) (q : Path) :
    lookupStatus (e :: m) q = if e.1 = q then some e.2 else lookupStatus m q := by
  by_cases h : e.1 = q <;> simp [lookupStatus, List.find?_cons, h]

lemma lookup_map_overwrite (k : Path) (v : GStat) (q : Path) (m : StatusMap) :
    lookupStatus (m.map (fun e => if e.1 = k then (k, v) else e)) q =
      if q = k then (if m.any (fun e => decide (e.1 = k)) then some v else none)
      else lookupStatus m q := by
  induction m with
  | nil => by_cases hq : q = k <;> simp [lookupStatus, hq]
  | cons e rest ih =>
    by_cases he : e.1 = k
    · have hany : ((e :: rest).any fun x => decide (x.1 = k)) = true := by
        simp [List.any_cons, he]
      rw [hany]
      by_cases hq : q = k
      · subst hq
        rw [List.map_cons, if_pos he, lookupStatus_cons, if_pos rfl]
        simp
      · have hne : ¬ e.1 = q := fun h => hq (h.symm.trans he)
        have hkq : ¬ k = q := fun h => hq h.symm
        rw [List.map_cons, if_pos he, lookupStatus_cons, if_neg hkq, ih, if_neg hq,
          if_neg hq, lookupStatus_cons, if_neg hne]
    · have hany : ((e :: rest).any fun x => decide (x.1 = k)) =
          (rest.any fun x => decide (x.1 = k)) := by
        simp [List.any_cons, he]
      rw [hany, List.map_cons, if_neg he]
      by_cases hq : e.1 = q
      · have hqk : ¬ q = k := fun h => he (hq.trans h)
        rw [lookupStatus_cons, if_pos hq, if_neg hqk, lookupStatus_cons, if_pos hq]
      · rw [lookupStatus_cons, if_neg hq, ih, lookupStatus_cons, if_neg hq]

lemma lookup_append_single (m : StatusMap) (k : Path) (v : GStat) (q : Path)
    (hk : m.any (fun e => decide (e.1 = k)) = false) :
    lookupStatus (m ++ [(k, v)]) q = if q = k then some v else lookupStatus m q := by
  unfold lookupStatus
  rw [List.find?_append]
  by_cases hq : q = k
  · have hnone : m.find? (fun e => decide (e.1 = q)) = none := by
      rw [List.find?_eq_none]
      intro e he
      simp only [decide_eq_true_eq]
      intro h
      have : m.any (fun e => decide (e.1 = k)) = true :=
        List.any_eq_true.2 ⟨e, he, by simp [h, hq]⟩
      rw [this] at hk
      cases hk
    rw [hnone, if_pos hq]
    have : List.find? (fun e => decide (e.1 = q)) [(k, v)] = some (k, v) := by
      simp [List.find?_cons, hq.symm]
    rw [Option.none_or, this]
    rfl
  · rw [if_neg hq]
    have hnone2 : List.find? (fun e => decide (e.1 = q)) [(k, v)] = none := by
      have hkq : ¬ k = q := fun h => hq h.symm
      simp [List.find?_cons, hkq]
    rw [hnone2]
    cases m.find? (fun e => decide (e.1 = q)) <;> rfl

lemma lookup_dictInsert (m : StatusMap) (k : Path) (v : GStat) (q : Path) :
    lookupStatus (dictInsert m k v) q = if q = k then some v else lookupStatus m q := by
  unfold dictInsert
  by_cases hk : m.any (fun e => decide (e.1 = k)) = true
  · rw [if_pos hk, lookup_map_overwrite, hk]
    by_cases hq : q = k <;> simp [hq]
  · rw [if_neg hk, lookup_append_single m k v q (Bool.eq_false_iff.2 hk)]

/-! ### C2: run_git_status parsing -/

/-- C2, counterexample: on the output line `"M  f"` (status code `M` then
space, i.e. the claim's `M_`) the source takes the `line[1] == ' '` branch
and tags the path Added, not Modified as the claim states. -/
theorem run_git_status_staged_modified_is_added :
    lookupStatus (run_git_status_lines [] ["M  f"]) ["f"] = some GStat.added ∧
      some GStat.added ≠ some GStat.modified :=
  ⟨rfl, by decide⟩

/-- C2 (amended): with exit status zero and decodable output,
`run_git_status` returns exactly the map obtained by classifying each
line — second character `M` is Modified (tested first), otherwise second
character space is Added (whatever the first character), otherwise `??`
is Untracked, `!!` is Ignored, exactly `AA` or `UU` is MergeConflict, and
any other code is skipped without aborting the parse — inserted over a
map pre-seeded with `root/.git ↦ Ignored`; the pre-seeded entry is still
present whenever no output line itself classifies to the `.git` path. -/
theorem run_git_status_matches_amended_claim :
    (∀ (root : Path) (lines : List String),
      run_git_status_lines root lines = claim_status_map root lines) ∧
    (∀ (root : Path) (lines : List String),
      (∀ line ∈ lines, classify_line line.data = none ∨
          line_path root line.data ≠ root ++ [".git"]) →
      lookupStatus (run_git_status_lines root lines) (root ++ [".git"]) =
        some GStat.ignored) := by
  constructor
  · intro root lines
    unfold run_git_status_lines claim_status_map
    apply List.foldl_ext
    intro m line _
    rw [classify_line_eq_claim_classify]
  · intro root lines h
    unfold run_git_status_lines
    have hseed : lookupStatus [(root ++ [".git"], GStat.ignored)] (root ++ [".git"]) =
        some GStat.ignored := by simp [lookupStatus]
    generalize hm : [(root ++ [".git"], GStat.ignored)] = m0 at hseed
    clear hm
    induction lines generalizing m0 with
    | nil => exact hseed
    | cons line rest ih =>
      have hline := h line (by simp)
      simp only [List.foldl_cons]
      rcases hcl : classify_line line.data with _ | st
      · exact ih (fun l hl => h l (by simp [hl])) m0 hseed
      · rcases hline with hnone | hne
        · rw [hcl] at hnone; cases hnone
        · apply ih (fun l hl => h l (by simp [hl]))
          rw [lookup_dictInsert, if_neg (fun hgit => hne hgit.symm)]
          exact hseed

/-- Witness for `run_git_status_matches_amended_claim`: the spec's own
examples, with no line naming `.git`. -/
theorem run_git_status_matches_amended_claim_witness :
    (∀ line ∈ ([" M src/foo.py", "?? newfile.txt", "!! build/", "UU conflict.py"] :
        List String),
      classify_line line.data = none ∨ line_path [] line.data ≠ [".git"]) ∧
    lookupStatus
        (run_git_status_lines [] [" M src/foo.py", "?? newfile.txt", "!! build/", "UU conflict.py"])
        [".git"] = some GStat.ignored :=
  ⟨by decide,
    run_git_status_matches_amended_claim.2 []
      [" M src/foo.py", "?? newfile.txt", "!! build/", "UU conflict.py"] (by decide)⟩

lemma mem_childTags (m : StatusMap) (child : Path) (s : GStat) :
    s ∈ childTags m child ↔
      ((s = GStat.added ∨ s = GStat.modified ∨ s = GStat.mergeconflict) ∧
        ∃ e ∈ m, e.2 = s ∧ isProperAncestor child e.1 = true) := by
  unfold childTags
  rw [List.mem_dedup]
  simp only [List.mem_map, List.mem_filter, Bool.and_eq_true, decide_eq_true_eq]
  constructor
  · rintro ⟨e, ⟨hem, hcond, hanc⟩, rfl⟩
    exact ⟨hcond, e, hem, rfl, hanc⟩
  · rintro ⟨hcond, e, hem, rfl, hanc⟩
    exact ⟨e, ⟨hem, hcond, hanc⟩, rfl⟩

lemma mem_descendant_statuses (m : StatusMap) (child : Path) (s : GStat) :
    s ∈ (m.filter (fun e => isProperAncestor child e.1)).map (·.2) ↔
      ∃ e ∈ m, e.2 = s ∧ isProperAncestor child e.1 = true := by
  simp only [List.mem_map, List.mem_filter]
  constructor
  · rintro ⟨e, ⟨hem, hanc⟩, rfl⟩
    exact ⟨e, hem, rfl, hanc⟩
  · rintro ⟨e, hem, rfl, hanc⟩
    exact ⟨e, ⟨hem, hanc⟩, rfl⟩

lemma nodup_all_eq {α : Type _} {l : List α} {a : α} (hn : l.Nodup)
    (hall : ∀ x ∈ l, x = a) : l = [] ∨ l = [a] := by
  cases l with
  | nil => exact Or.inl rfl
  | cons b t =>
    right
    have hb : b = a := hall b (by simp)
    subst hb
    have ht : t = [] := by
      cases t with
      | nil => rfl
      | cons c u =>
        have hc : c = b := hall c (by simp)
        exact absurd (hc ▸ (List.mem_cons_self c u)) (List.nodup_cons.1 hn).1
    rw [ht]

lemma nodup_childTags (m : StatusMap) (child : Path) : (childTags m child).Nodup :=
  List.nodup_dedup _

lemma relevant_parents_cons (roots : List Path) (p : Path) :
    ∃ t, relevant_parents roots p = p :: t := by
  unfold relevant_parents
  cases hl : p.length with
  | zero => exact ⟨[], rfl⟩
  | succ n =>
    by_cases h : p ∈ roots ∨ p = []
    · exact ⟨[], by simp only [relevant_parents_fuel, if_pos h]⟩
    · exact ⟨relevant_parents_fuel roots n p.dropLast,
        by simp only [relevant_parents_fuel, if_neg h]⟩

/-! ### C1: directory status aggregation -/

/-- C1, counterexample: a directory with two Untracked descendants and no
direct entry along its ancestor chain gets no git tag at all (the source
pre-filters descendant statuses to Added/Modified/MergeConflict), not the
Untracked tag the claim's "single distinct status type is adopted" rule
would give. -/
theorem untracked_only_descendants_give_no_tag :
    lookupStatus [(["d", "x"], GStat.untracked), (["d", "y"], GStat.untracked)] ["d"] = none ∧
    lookupStatus [(["d", "x"], GStat.untracked), (["d", "y"], GStat.untracked)] [] = none ∧
    compute_git_tags [([], [(["d", "x"], GStat.untracked), (["d", "y"], GStat.untracked)])]
        [[]] ["d"] = [] ∧
    ([] : List GStat) ≠ [GStat.untracked] :=
  ⟨rfl, rfl, rfl, by decide⟩

/-- C1 (amended): when no direct entry matches along the ancestor chain,
the child's status is derived from StatusMap entries at proper descendant
paths, pre-filtered to Added/Modified/MergeConflict, with precedence:
MergeConflict if any, else Modified if any, else Added if any, else no
tag.  In particular {Modified, Untracked} yields Modified, while
{Untracked, Untracked} and {Untracked, Ignored} yield no tag. -/
theorem directory_aggregation_matches_amended_claim
    (gs : List (Path × StatusMap)) (roots : List Path) (child : Path)
    (hmiss : (relevant_parents roots child).findSome?
        (fun q => lookupStatus (lookupGS gs (project_root_of roots child)) q) = none) :
    compute_git_tags gs roots child =
      claim_aggregate (lookupGS gs (project_root_of roots child)) child := by
  simp only [compute_git_tags]
  rw [hmiss]
  dsimp only
  set m := lookupGS gs (project_root_of roots child) with hm
  unfold claim_aggregate
  have hmc : GStat.mergeconflict ∈ childTags m child ↔
      GStat.mergeconflict ∈ (m.filter (fun e => isProperAncestor child e.1)).map (·.2) := by
    rw [mem_childTags, mem_descendant_statuses]
    exact and_iff_right (Or.inr (Or.inr rfl))
  have hmod : GStat.modified ∈ childTags m child ↔
      GStat.modified ∈ (m.filter (fun e => isProperAncestor child e.1)).map (·.2) := by
    rw [mem_childTags, mem_descendant_statuses]
    exact and_iff_right (Or.inr (Or.inl rfl))
  have hadd : GStat.added ∈ childTags m child ↔
      GStat.added ∈ (m.filter (fun e => isProperAncestor child e.1)).map (·.2) := by
    rw [mem_childTags, mem_descendant_statuses]
    exact and_iff_right (Or.inl rfl)
  by_cases h1 : GStat.mergeconflict ∈ (m.filter (fun e => isProperAncestor child e.1)).map (·.2)
  · rw [if_pos (hmc.2 h1), if_pos h1]
  · rw [if_neg (fun h => h1 (hmc.1 h)), if_neg h1]
    by_cases h2 : GStat.modified ∈ (m.filter (fun e => isProperAncestor child e.1)).map (·.2)
    · rw [if_pos (hmod.2 h2), if_pos h2]
    · rw [if_neg (fun h => h2 (hmod.1 h)), if_neg h2]
      have hall : ∀ x ∈ childTags m child, x = GStat.added := by
        intro x hx
        rcases (mem_childTags m child x).1 hx with ⟨hcond, hex⟩
        rcases hcond with h | h | h
        · exact h
        · subst h
          exact absurd ((mem_childTags m child _).1 hx) (fun hmem =>
            h2 (hmod.1 (by rwa [mem_childTags])))
        · subst h
          exact absurd ((mem_childTags m child _).1 hx) (fun hmem =>
            h1 (hmc.1 (by rwa [mem_childTags])))
      by_cases h3 : GStat.added ∈ (m.filter (fun e => isProperAncestor child e.1)).map (·.2)
      · rw [if_pos h3]
        rcases nodup_all_eq (nodup_childTags m child) hall with hnil | hone
        · exfalso
          have hmem : GStat.added ∈ childTags m child := hadd.2 h3
          rw [hnil] at hmem
          exact absurd hmem (List.not_mem_nil _)
        · exact hone
      · rw [if_neg h3]
        rw [List.eq_nil_iff_forall_not_mem]
        intro x hx
        have := hall x hx
        subst this
        exact h3 (hadd.1 hx)

/-- Witness for `directory_aggregation_matches_amended_claim`: descendants
{Modified, Untracked} under one directory, no direct entry on the chain;
the computed tag is Modified. -/
theorem directory_aggregation_matches_amended_claim_witness :
    (relevant_parents [[]] ["d"]).findSome?
        (fun q => lookupStatus
          (lookupGS [([], [(["d", "x"], GStat.modified), (["d", "y"], GStat.untracked)])]
            (project_root_of [[]] ["d"])) q) = none ∧
    compute_git_tags [([], [(["d", "x"], GStat.modified), (["d", "y"], GStat.untracked)])]
        [[]] ["d"] =
      claim_aggregate
        (lookupGS [([], [(["d", "x"], GStat.modified), (["d", "y"], GStat.untracked)])]
          (project_root_of [[]] ["d"])) ["d"] :=
  ⟨rfl, directory_aggregation_matches_amended_claim
    [([], [(["d", "x"], GStat.modified), (["d", "y"], GStat.untracked)])] [[]] ["d"] rfl⟩

/-! ### C3: direct entries on the ancestor chain -/

/-- C3: walking `relevant_parents` (the child, then its parents, stopping
at the project root), the first direct StatusMap entry found is the
child's status; in particular an entry exactly at the child's path always
wins, over ancestors' own entries and over any descendant aggregation. -/
theorem closest_status_entry_wins :
    (∀ (gs : List (Path × StatusMap)) (roots : List Path) (child : Path) (s : GStat),
      (relevant_parents roots child).findSome?
          (fun q => lookupStatus (lookupGS gs (project_root_of roots child)) q) = some s →
      compute_git_tags gs roots child = [s]) ∧
    (∀ (gs : List (Path × StatusMap)) (roots : List Path) (child : Path) (s : GStat),
      lookupStatus (lookupGS gs (project_root_of roots child)) child = some s →
      compute_git_tags gs roots child = [s]) := by
  have main : ∀ (gs : List (Path × StatusMap)) (roots : List Path) (child : Path) (s : GStat),
      (relevant_parents roots child).findSome?
          (fun q => lookupStatus (lookupGS gs (project_root_of roots child)) q) = some s →
      compute_git_tags gs roots child = [s] := by
    intro gs roots child s h
    simp only [compute_git_tags]
    rw [h]
  refine ⟨main, fun gs roots child s h => main gs roots child s ?_⟩
  obtain ⟨t, ht⟩ := relevant_parents_cons roots child
  rw [ht, List.findSome?_cons, h]

/-- Witness for `closest_status_entry_wins`: an entry exactly at the
child's path (Untracked) wins although a descendant entry is Modified and
the project root has its own entry. -/
theorem closest_status_entry_wins_witness :
    lookupStatus
        (lookupGS
          [([], [(["d"], GStat.untracked), (["d", "x"], GStat.modified), ([], GStat.ignored)])]
          (project_root_of [[]] ["d"])) ["d"] = some GStat.untracked ∧
    compute_git_tags
        [([], [(["d"], GStat.untracked), (["d", "x"], GStat.modified), ([], GStat.ignored)])]
        [[]] ["d"] = [GStat.untracked] :=
  ⟨rfl, closest_status_entry_wins.2
    [([], [(["d"], GStat.untracked), (["d", "x"], GStat.modified), ([], GStat.ignored)])]
    [[]] ["d"] GStat.untracked rfl⟩

/-! ### C10: the aggregation assertion is safe -/

/-- C10: after filtering descendant statuses to
Added/Modified/MergeConflict and discharging the MergeConflict and
Modified cases, at most one distinct status remains, so
`assert len(child_tags) <= 1` never fails; consequently Untracked and
Ignored descendants never contribute an aggregated tag. -/
theorem aggregation_assert_never_fails :
    (∀ (m : StatusMap) (child : Path),
      GStat.mergeconflict ∉ childTags m child →
      GStat.modified ∉ childTags m child →
      (childTags m child).length ≤ 1) ∧
    (∀ (gs : List (Path × StatusMap)) (roots : List Path) (child : Path),
      (relevant_parents roots child).findSome?
          (fun q => lookupStatus (lookupGS gs (project_root_of roots child)) q) = none →
      GStat.untracked ∉ compute_git_tags gs roots child ∧
      GStat.ignored ∉ compute_git_tags gs roots child) := by
  constructor
  · intro m child hmc hmod
    have hall : ∀ x ∈ childTags m child, x = GStat.added := by
      intro x hx
      rcases (mem_childTags m child x).1 hx with ⟨hcond, _⟩
      rcases hcond with h | h | h
      · exact h
      · exact absurd (h ▸ hx) hmod
      · exact absurd (h ▸ hx) hmc
    rcases nodup_all_eq (nodup_childTags m child) hall with hnil | hone
    · simp [hnil]
    · simp [hone]
  · intro gs roots child hmiss
    simp only [compute_git_tags]
    rw [hmiss]
    dsimp only
    set m := lookupGS gs (project_root_of roots child) with hm
    split_ifs with h1 h2
    · constructor <;> decide
    · constructor <;> decide
    · refine ⟨fun hx => ?_, fun hx => ?_⟩ <;>
      · rcases (mem_childTags m child _).1 hx with ⟨hcond, _⟩
        simp at hcond

/-- Witness for `aggregation_assert_never_fails`: a map with Untracked,
Ignored and Added descendants of the child. -/
theorem aggregation_assert_never_fails_witness :
    GStat.mergeconflict ∉
        childTags [(["d", "x"], GStat.untracked), (["d", "y"], GStat.ignored),
          (["d", "z"], GStat.added)] ["d"] ∧
    GStat.modified ∉
        childTags [(["d", "x"], GStat.untracked), (["d", "y"], GStat.ignored),
          (["d", "z"], GStat.added)] ["d"] ∧
    (childTags [(["d", "x"], GStat.untracked), (["d", "y"], GStat.ignored),
        (["d", "z"], GStat.added)] ["d"]).length ≤ 1 :=
  ⟨by decide, by decide,
    aggregation_assert_never_fails.1
      [(["d", "x"], GStat.untracked), (["d", "y"], GStat.ignored), (["d", "z"], GStat.added)]
      ["d"] (by decide) (by decide)⟩

/-! ### C7: the eviction policy -/

lemma hideAux_kept_sub (rev : List Project) :
    ∀ (kept : List Project) (q : Project), q ∈ kept →
      q ∈ hide_old_projects_aux rev kept := by
  induction rev with
  | nil => intro kept q hq; exact hq
  | cons p rest ih =>
    intro kept q hq
    simp only [hide_old_projects_aux]
    split
    · exact ih kept q hq
    · exact ih (p :: kept) q (List.mem_cons_of_mem p hq)

lemma hideAux_isDir (rev : List Project) :
    ∀ (kept : List Project), (∀ q ∈ kept, q.isDir = true) →
      ∀ q ∈ hide_old_projects_aux rev kept, q.isDir = true := by
  induction rev with
  | nil => intro kept hk q hq; exact hk q hq
  | cons p rest ih =>
    intro kept hk q hq
    simp only [hide_old_projects_aux] at hq
    by_cases hc : (!p.isDir
        || (decide (rest.length + 1 + kept.length > PROJECT_AUTOCLOSE_COUNT)
            && !p.hasOpenDoc)) = true
    · rw [if_pos hc] at hq
      exact ih kept hk q hq
    · rw [if_neg hc] at hq
      refine ih (p :: kept) ?_ q hq
      intro q' hq'
      rcases List.mem_cons.1 hq' with rfl | h
      · have hfalse : (!q'.isDir) = false := by
          cases hdir : q'.isDir with
          | true => simp
          | false => exact absurd (by simp [hdir]) hc
        simpa using hfalse
      · exact hk q' h

lemma hideAux_doc_kept (rev : List Project) :
    ∀ (kept : List Project) (q : Project), q ∈ rev → q.isDir = true →
      q.hasOpenDoc = true → q ∈ hide_old_projects_aux rev kept := by
  induction rev with
  | nil => intro kept q hq; cases hq
  | cons p rest ih =>
    intro kept q hq hdir hdoc
    rcases List.mem_cons.1 hq with rfl | h
    · have hc : (!q.isDir
          || (decide (rest.length + 1 + kept.length > PROJECT_AUTOCLOSE_COUNT)
              && !q.hasOpenDoc)) = false := by
        simp [hdir, hdoc]
      simp only [hide_old_projects_aux, hc, if_false, Bool.false_eq_true]
      exact hideAux_kept_sub rest (q :: kept) q (List.mem_cons_self q kept)
    · simp only [hide_old_projects_aux]
      split
      · exact ih kept q h hdir hdoc
      · exact ih (p :: kept) q h hdir hdoc

lemma hideAux_take (rev : List Project) :
    ∀ (kept : List Project), (∀ q ∈ rev, q.isDir = true ∧ q.hasOpenDoc = false) →
      hide_old_projects_aux rev kept =
        rev.reverse.take (PROJECT_AUTOCLOSE_COUNT - kept.length) ++ kept := by
  induction rev with
  | nil => intro kept _; simp [hide_old_projects_aux]
  | cons p rest ih =>
    intro kept hall
    obtain ⟨hdir, hdoc⟩ := hall p (List.mem_cons_self p rest)
    have hrest : ∀ q ∈ rest, q.isDir = true ∧ q.hasOpenDoc = false := by
      intro q hq
      exact hall q (List.mem_cons_of_mem p hq)
    simp only [hide_old_projects_aux, hdir, hdoc, Bool.not_true, Bool.not_false,
      Bool.and_true, Bool.false_or, List.reverse_cons]
    by_cases hc : rest.length + 1 + kept.length > PROJECT_AUTOCLOSE_COUNT
    · rw [if_pos (by simpa using hc), ih kept hrest,
        List.take_append_of_le_length (by simp; omega)]
    · rw [if_neg (by simpa using hc), ih (p :: kept) hrest,
        List.take_of_length_le (by simp; omega),
        List.take_of_length_le (by simp; omega)]
      simp

/-- Claim-side rendering of C7's "removes exactly", independent of the
code's running kept-count.  The argument list is the projects reversed
(least recently used first, the scan order); `d` counts the projects
with open documents among the already-scanned, less recently used region
— exactly the ones the scan can never evict.  A project is removed iff
its path no longer exists, or it has no open document and its position
from the most recent end plus one plus `d` still exceeds the cap; that
sum is the number of tracked projects that would remain even after
evicting every candidate behind it. -/
def claim_evict_aux : List Project → Nat → List Project → List Project
  | [], _, kept => kept
  | p :: rest, d, kept =>
    let d' := d + (if p.isDir && p.hasOpenDoc then 1 else 0)
    if !p.isDir
        || (decide (rest.length + 1 + d > PROJECT_AUTOCLOSE_COUNT) && !p.hasOpenDoc) then
      claim_evict_aux rest d' kept
    else claim_evict_aux rest d' (p :: kept)

def claim_evict (ps : List Project) : List Project :=
  claim_evict_aux ps.reverse 0 []

/-- The code's backward scan (running count of rows still present) agrees
with the claim-side scan (count of protected projects behind), given the
invariant tying the two counts: while the scan is still over the cap the
kept rows are exactly the protected ones, and once the running count is
at the cap nothing further is evicted on either side. -/
lemma hideAux_eq_claimAux :
    ∀ (rev : List Project) (d : Nat) (kept : List Project),
      (kept.length = d ∨
        (rev.length + kept.length ≤ PROJECT_AUTOCLOSE_COUNT ∧ d ≤ kept.length)) →
      hide_old_projects_aux rev kept = claim_evict_aux rev d kept := by
  intro rev
  induction rev with
  | nil => intro d kept _; rfl
  | cons p rest ih =>
    intro d kept hinv
    simp only [hide_old_projects_aux, claim_evict_aux]
    by_cases hdir : p.isDir = true
    · by_cases hdoc : p.hasOpenDoc = true
      · -- a project with an open document: kept by both scans
        simp only [hdir, hdoc, Bool.not_true, Bool.and_false, Bool.false_or,
          Bool.false_eq_true, if_false, Bool.and_true, if_true]
        apply ih
        rcases hinv with heq | ⟨hle, hdk⟩
        · left
          simp [heq]
        · right
          constructor
          · simp only [List.length_cons] at hle ⊢
            omega
          · simp only [List.length_cons]
            omega
      · -- a document-less existing project
        have hdf : p.hasOpenDoc = false := by
          revert hdoc
          cases p.hasOpenDoc <;> simp
        simp only [hdir, hdf, Bool.not_true, Bool.not_false, Bool.and_true,
          Bool.false_or, Bool.and_false, Nat.add_zero, if_false, Bool.false_eq_true]
        rcases hinv with heq | ⟨hle, hdk⟩
        · rw [← heq]
          by_cases hgt : rest.length + 1 + kept.length > PROJECT_AUTOCLOSE_COUNT
          · rw [if_pos (by simpa using hgt), if_pos (by simpa using hgt)]
            exact ih kept.length kept (Or.inl rfl)
          · rw [if_neg (by simpa using hgt), if_neg (by simpa using hgt)]
            apply ih
            right
            constructor
            · simp only [List.length_cons] at hgt ⊢
              omega
            · simp only [List.length_cons]
              omega
        · have hgt1 : ¬ rest.length + 1 + kept.length > PROJECT_AUTOCLOSE_COUNT := by
            simp only [List.length_cons] at hle
            omega
          have hgt2 : ¬ rest.length + 1 + d > PROJECT_AUTOCLOSE_COUNT := by
            simp only [List.length_cons] at hle
            omega
          rw [if_neg (by simpa using hgt1), if_neg (by simpa using hgt2)]
          apply ih
          right
          constructor
          · simp only [List.length_cons] at hle ⊢
            omega
          · simp only [List.length_cons]
            omega
    · -- the path no longer exists: removed by both scans
      have hdf : p.isDir = false := by
        revert hdir
        cases p.isDir <;> simp
      simp only [hdf, Bool.not_false, Bool.true_or, if_true, Bool.false_and,
        Nat.add_zero]
      apply ih
      rcases hinv with heq | ⟨hle, hdk⟩
      · exact Or.inl heq
      · right
        constructor
        · simp only [List.length_cons] at hle
          omega
        · exact hdk

/-- At or under the cap, the scan removes exactly the projects whose path
no longer exists. -/
lemma hideAux_under_cap :
    ∀ (rev kept : List Project),
      rev.length + kept.length ≤ PROJECT_AUTOCLOSE_COUNT →
      hide_old_projects_aux rev kept =
        (rev.filter (fun q => q.isDir)).reverse ++ kept := by
  intro rev
  induction rev with
  | nil => intro kept _; simp [hide_old_projects_aux]
  | cons p rest ih =>
    intro kept hle
    have hgt : ¬ rest.length + 1 + kept.length > PROJECT_AUTOCLOSE_COUNT := by
      simp only [List.length_cons] at hle
      omega
    simp only [hide_old_projects_aux]
    by_cases hdir : p.isDir = true
    · have hc : (!p.isDir
          || (decide (rest.length + 1 + kept.length > PROJECT_AUTOCLOSE_COUNT)
              && !p.hasOpenDoc)) = false := by
        simp [hdir, hgt]
      rw [hc]
      simp only [Bool.false_eq_true, if_false]
      rw [ih (p :: kept) (by simp only [List.length_cons] at hle ⊢; omega)]
      simp [List.filter_cons, hdir]
    · have hdf : p.isDir = false := by
        revert hdir
        cases p.isDir <;> simp
      have hc : (!p.isDir
          || (decide (rest.length + 1 + kept.length > PROJECT_AUTOCLOSE_COUNT)
              && !p.hasOpenDoc)) = true := by
        simp [hdf]
      rw [hc]
      simp only [if_true]
      rw [ih kept (by simp only [List.length_cons] at hle; omega)]
      simp [List.filter_cons, hdf]

/-- C7: the eviction check removes exactly the projects whose path no
longer exists plus, while the running count still exceeds the cap, the
least recently used document-less ones (the claim-side scan
`claim_evict` makes the removal condition explicit: position from the
most recent end, plus one, plus the protected projects behind, above the
cap).  In particular: at or under the cap only vanished projects are
removed; survivors always exist on disk; an existing project with an
open document is never evicted regardless of recency or count; and six
existing document-less projects are reduced to exactly the five most
recently used. -/
theorem hide_old_projects_eviction_policy :
    (∀ ps : List Project, hide_old_projects ps = claim_evict ps) ∧
    (∀ ps : List Project, ps.length ≤ PROJECT_AUTOCLOSE_COUNT →
      hide_old_projects ps = ps.filter (fun q => q.isDir)) ∧
    (∀ (ps : List Project) (q : Project), q ∈ hide_old_projects ps → q.isDir = true) ∧
    (∀ (ps : List Project) (q : Project), q ∈ ps → q.isDir = true → q.hasOpenDoc = true →
      q ∈ hide_old_projects ps) ∧
    (∀ ps : List Project, (∀ q ∈ ps, q.isDir = true ∧ q.hasOpenDoc = false) →
      hide_old_projects ps = ps.take PROJECT_AUTOCLOSE_COUNT) := by
  refine ⟨?_, ?_, ?_, ?_, ?_⟩
  · intro ps
    exact hideAux_eq_claimAux ps.reverse 0 [] (Or.inl rfl)
  · intro ps hlen
    unfold hide_old_projects
    rw [hideAux_under_cap ps.reverse [] (by simpa using hlen)]
    simp [List.filter_reverse]
  · intro ps q hq
    exact hideAux_isDir ps.reverse [] (by intro q' hq'; cases hq') q hq
  · intro ps q hq hdir hdoc
    exact hideAux_doc_kept ps.reverse [] q (List.mem_reverse.2 hq) hdir hdoc
  · intro ps hall
    unfold hide_old_projects
    rw [hideAux_take ps.reverse [] (by intro q hq; exact hall q (List.mem_reverse.1 hq))]
    simp

/-- Witness for `hide_old_projects_eviction_policy`: a mixed over-cap
list — six tracked projects, one vanished, one document-protected — and
the claim's own six-existing-document-less example reduced to the five
most recently used. -/
theorem hide_old_projects_eviction_policy_witness :
    ([⟨["p1"], true, false⟩, ⟨["gone"], false, false⟩, ⟨["p3"], true, false⟩,
        ⟨["p4"], true, false⟩, ⟨["p5"], true, true⟩, ⟨["p6"], true, false⟩] : List Project).length
        ≤ PROJECT_AUTOCLOSE_COUNT + 1 ∧
    hide_old_projects
        [⟨["p1"], true, false⟩, ⟨["gone"], false, false⟩, ⟨["p3"], true, false⟩,
          ⟨["p4"], true, false⟩, ⟨["p5"], true, true⟩, ⟨["p6"], true, false⟩] =
      claim_evict
        [⟨["p1"], true, false⟩, ⟨["gone"], false, false⟩, ⟨["p3"], true, false⟩,
          ⟨["p4"], true, false⟩, ⟨["p5"], true, true⟩, ⟨["p6"], true, false⟩] ∧
    (∀ q ∈ ([⟨["p1"], true, false⟩, ⟨["p2"], true, false⟩, ⟨["p3"], true, false⟩,
        ⟨["p4"], true, false⟩, ⟨["p5"], true, false⟩, ⟨["p6"], true, false⟩] : List Project),
      q.isDir = true ∧ q.hasOpenDoc = false) ∧
    hide_old_projects
        [⟨["p1"], true, false⟩, ⟨["p2"], true, false⟩, ⟨["p3"], true, false⟩,
          ⟨["p4"], true, false⟩, ⟨["p5"], true, false⟩, ⟨["p6"], true, false⟩] =
      List.take PROJECT_AUTOCLOSE_COUNT
        [⟨["p1"], true, false⟩, ⟨["p2"], true, false⟩, ⟨["p3"], true, false⟩,
          ⟨["p4"], true, false⟩, ⟨["p5"], true, false⟩, ⟨["p6"], true, false⟩] :=
  ⟨by decide,
    hide_old_projects_eviction_policy.1
      [⟨["p1"], true, false⟩, ⟨["gone"], false, false⟩, ⟨["p3"], true, false⟩,
        ⟨["p4"], true, false⟩, ⟨["p5"], true, true⟩, ⟨["p6"], true, false⟩],
    by decide,
    hide_old_projects_eviction_policy.2.2.2.2
      [⟨["p1"], true, false⟩, ⟨["p2"], true, false⟩, ⟨["p3"], true, false⟩,
        ⟨["p4"], true, false⟩, ⟨["p5"], true, false⟩, ⟨["p6"], true, false⟩]
      (by decide)⟩

/-! ### C8: add_project -/

/-- C8, counterexample: adding an already-tracked path only moves the row
to the front and returns; the eviction check (and with it the persistence
of the project list) is not triggered, contradicting the claim's "in both
cases". -/
theorem add_project_tracked_skips_eviction :
    add_project [⟨["x"], true, false⟩] ⟨["x"], true, false⟩ =
      ([⟨["x"], true, false⟩], false) ∧
    false ≠ true :=
  ⟨rfl, by decide⟩

/-- C8 (amended): for an already-tracked path, `add_project` moves the
first row with that path to index 0, leaves the row (and hence its
subtree) untouched, only permutes the tracked list, and does not trigger
the eviction check or persistence; for an untracked path it inserts the
new project at index 0 and runs the eviction check (which persists the
list). -/
theorem add_project_behaviour :
    (∀ (ps : List Project) (p q : Project),
      ps.find? (fun q' => decide (q'.path = p.path)) = some q →
      add_project ps p = (q :: ps.eraseP (fun q' => decide (q'.path = p.path)), false) ∧
      (add_project ps p).1.Perm ps) ∧
    (∀ (ps : List Project) (p : Project),
      ps.find? (fun q' => decide (q'.path = p.path)) = none →
      add_project ps p = (hide_old_projects (p :: ps), true)) := by
  constructor
  · intro ps p q hfind
    have heq : add_project ps p =
        (q :: ps.eraseP (fun q' => decide (q'.path = p.path)), false) := by
      unfold add_project
      rw [hfind]
    refine ⟨heq, ?_⟩
    rw [heq]
    obtain ⟨a, l₁, l₂, hl₁, hpa, hsplit, herase⟩ :=
      List.exists_of_eraseP (List.mem_of_find?_eq_some hfind) (List.find?_some hfind)
    have hfind' : ps.find? (fun q' => decide (q'.path = p.path)) = some a := by
      rw [hsplit, List.find?_append]
      have h1 : l₁.find? (fun q' => decide (q'.path = p.path)) = none :=
        List.find?_eq_none.2 hl₁
      rw [h1, Option.none_or, List.find?_cons, hpa]
    have hqa : q = a := by
      rw [hfind] at hfind'
      exact Option.some.inj hfind'
    subst hqa
    rw [herase]
    calc (q :: (l₁ ++ l₂)).Perm (l₁ ++ q :: l₂) := (List.perm_middle).symm
      _ = ps := hsplit.symm
  · intro ps p hfind
    unfold add_project
    rw [hfind]

/-- Witness for `add_project_behaviour`: moving an already-tracked second
project to the front, and inserting a fresh one. -/
theorem add_project_behaviour_witness :
    ([⟨["a"], true, false⟩, ⟨["b"], true, false⟩] : List Project).find?
        (fun q' => decide (q'.path = (⟨["b"], true, true⟩ : Project).path)) =
      some ⟨["b"], true, false⟩ ∧
    add_project [⟨["a"], true, false⟩, ⟨["b"], true, false⟩] ⟨["b"], true, true⟩ =
      ([⟨["b"], true, false⟩, ⟨["a"], true, false⟩], false) ∧
    (add_project [⟨["a"], true, false⟩, ⟨["b"], true, false⟩] ⟨["b"], true, true⟩).1.Perm
      [⟨["a"], true, false⟩, ⟨["b"], true, false⟩] := by
  have h := add_project_behaviour.1
    [⟨["a"], true, false⟩, ⟨["b"], true, false⟩] ⟨["b"], true, true⟩
    ⟨["b"], true, false⟩ (by decide)
  exact ⟨by decide, h.1, h.2⟩

/-! ### C9: staleness of the refresh cycle -/

/-- C9: if the snapshot of project-row ids taken at probe dispatch no
longer matches the current set at completion (or the probe thread
failed), the cycle's results are discarded and the state — every tree
node included — is left exactly as it was; if it matches, the new status
maps are installed and the whole forest is reconciled from the project
roots down (`open_and_refresh_directory(None, '')`). -/
theorem done_callback_staleness :
    (∀ (fs : Fs) (snap : List Nat) (result : List (Path × StatusMap)) (success : Bool)
        (st : SyncState),
      idsSetEq st.rootIds snap = false ∨ success = false →
      done_callback fs snap result success st = st) ∧
    (∀ (fs : Fs) (snap : List Nat) (result : List (Path × StatusMap)) (st : SyncState),
      idsSetEq st.rootIds snap = true →
      (done_callback fs snap result true st).gitStatuses = result ∧
      (done_callback fs snap result true st).rootItems =
        (open_and_refresh_directory fs result
          (st.rootItems.filterMap (fun it => (nodeParts it).map (·.1))) none
          st.rootItems).1 ∧
      (done_callback fs snap result true st).rootIds = st.rootIds) := by
  constructor
  · intro fs snap result success st h
    unfold done_callback
    rcases h with h | h <;> simp [h]
  · intro fs snap result st h
    unfold done_callback
    simp [h]

/-- Witness for `done_callback_staleness`: a single project row whose id
survived the probe; the fresh map is installed and the row reconciled. -/
theorem done_callback_staleness_witness :
    idsSetEq (SyncState.mk [7] [Item.node ["r"] true [] [Item.dummy]] []).rootIds [7] = true ∧
    (done_callback [] [7] [(["r"], [(["r", "f"], GStat.modified)])] true
        (SyncState.mk [7] [Item.node ["r"] true [] [Item.dummy]] [])).gitStatuses =
      [(["r"], [(["r", "f"], GStat.modified)])] :=
  ⟨by decide,
    (done_callback_staleness.2 [] [7] [(["r"], [(["r", "f"], GStat.modified)])]
      (SyncState.mk [7] [Item.node ["r"] true [] [Item.dummy]] []) (by decide)).1⟩

/-! ### Tree model helper lemmas -/

lemma one_le_itemsSize (l : List Item) : 1 ≤ itemsSize l := by
  cases l with
  | nil => simp [itemsSize]
  | cons it rest =>
    cases it with
    | dummy =>
      simp only [itemsSize]
      omega
    | node a b g k =>
      simp only [itemsSize]
      omega

lemma itemsSize_eq_succ (l : List Item) : ∃ m, itemsSize l = m + 1 :=
  ⟨itemsSize l - 1, by have := one_le_itemsSize l; omega⟩

lemma itemsSize_parts_lt (l : List Item) :
    ∀ x ∈ l.filterMap nodeParts, itemsSize x.2.2.2 < itemsSize l := by
  induction l with
  | nil => simp
  | cons it rest ih =>
    intro x hx
    cases it with
    | dummy =>
      simp only [List.filterMap_cons, nodeParts] at hx
      have := ih x hx
      simp only [itemsSize]
      omega
    | node a b g k =>
      simp only [List.filterMap_cons, nodeParts] at hx
      rcases List.mem_cons.1 hx with rfl | hx'
      · simp only [itemsSize]
        omega
      · have := ih x hx'
        simp only [itemsSize]
        omega

lemma listSetEq_refl (a : List GStat) : listSetEq a a = true := by
  simp [listSetEq, List.all_eq_true]

lemma containsDummy_eq_false (l : List Item) (h : ∀ it ∈ l, it.isDummy = false) :
    containsDummy l = false := by
  match l with
  | [] => rfl
  | [it] => simpa [containsDummy] using h it (by simp)
  | _ :: _ :: _ => rfl

lemma rebuild_of_nodummy (l : List Item) (h : ∀ it ∈ l, it.isDummy = false) :
    (l.filterMap nodeParts).map (fun x => Item.node x.1 x.2.1 x.2.2.1 x.2.2.2) = l := by
  induction l with
  | nil => rfl
  | cons it rest ih =>
    cases it with
    | dummy =>
      have hcontra := h Item.dummy (List.mem_cons_self _ _)
      simp [Item.isDummy] at hcontra
    | node a b g k =>
      simp only [List.filterMap_cons, nodeParts, List.map_cons]
      rw [ih (fun it hit => h it (List.mem_cons_of_mem _ hit))]

lemma process_old_fst (gs : List (Path × StatusMap)) (roots : List Path)
    (recur : Path → List Item → List Item × List Ev)
    (x : Path × Bool × List GStat × List Item) :
    ∃ g k, (process_old gs roots recur x).1 = Item.node x.1 x.2.1 g k := by
  unfold process_old
  dsimp only
  split
  · exact ⟨_, _, rfl⟩
  · exact ⟨_, _, rfl⟩

lemma process_new_fst (fs : Fs) (gs : List (Path × StatusMap)) (roots : List Path)
    (q : Path) :
    (process_new fs gs roots q).1 =
      Item.node q (fs.isDir q) (compute_git_tags gs roots q)
        (if fs.isDir q then [Item.dummy] else []) := rfl

lemma mem_cont_fst_iff (fs : Fs) (gs : List (Path × StatusMap)) (roots : List Path)
    (recur : Path → List Item → List Item × List Ev)
    (parts1 : List (Path × Bool × List GStat × List Item)) (startEvs : List Ev)
    (newPaths : List Path) (doSort : Bool) (it : Item) :
    it ∈ (reconcile_cont fs gs roots recur parts1 startEvs newPaths doSort).1 ↔
      it ∈ (parts1.filter (fun x => decide (x.1 ∈ newPaths))).map
            (fun x => (process_old gs roots recur x).1) ++
          (newPaths.filter (fun q => decide (q ∉ parts1.map (·.1)))).map
            (fun q => (process_new fs gs roots q).1) := by
  unfold reconcile_cont
  dsimp only
  split
  · rw [List.mem_insertionSort]
    simp [List.map_map, Function.comp]
  · simp [List.map_map, Function.comp]

lemma cont_fst_paths (fs : Fs) (gs : List (Path × StatusMap)) (roots : List Path)
    (recur : Path → List Item → List Item × List Ev)
    (parts1 : List (Path × Bool × List GStat × List Item)) (startEvs : List Ev)
    (newPaths : List Path) (doSort : Bool) :
    ∀ q : Path,
      q ∈ (((reconcile_cont fs gs roots recur parts1 startEvs newPaths doSort).1).filterMap
          nodeParts).map (·.1) ↔ q ∈ newPaths := by
  intro q
  constructor
  · intro hq
    rcases List.mem_map.1 hq with ⟨x, hx, rfl⟩
    rcases List.mem_filterMap.1 hx with ⟨it, hit, hparts⟩
    rcases List.mem_append.1 ((mem_cont_fst_iff fs gs roots recur parts1 startEvs
        newPaths doSort it).1 hit) with hold | hnew
    · rcases List.mem_map.1 hold with ⟨y, hy, heq⟩
      obtain ⟨g, k, hform⟩ := process_old_fst gs roots recur y
      rw [← heq, hform] at hparts
      simp only [nodeParts, Option.some.injEq] at hparts
      have hx1 : x.1 = y.1 := by rw [← hparts]
      rw [hx1]
      exact of_decide_eq_true (List.mem_filter.1 hy).2
    · rcases List.mem_map.1 hnew with ⟨r, hr, heq⟩
      rw [← heq, process_new_fst] at hparts
      simp only [nodeParts, Option.some.injEq] at hparts
      have hx1 : x.1 = r := by rw [← hparts]
      rw [hx1]
      exact (List.mem_filter.1 hr).1
  · intro hq
    by_cases hold : q ∈ parts1.map (·.1)
    · rcases List.mem_map.1 hold with ⟨y, hy, rfl⟩
      obtain ⟨g, k, hform⟩ := process_old_fst gs roots recur y
      apply List.mem_map.2
      refine ⟨(y.1, y.2.1, g, k), ?_, rfl⟩
      apply List.mem_filterMap.2
      refine ⟨(process_old gs roots recur y).1, ?_, by rw [hform]; rfl⟩
      apply (mem_cont_fst_iff fs gs roots recur parts1 startEvs newPaths doSort _).2
      apply List.mem_append.2
      left
      exact List.mem_map.2 ⟨y, List.mem_filter.2 ⟨hy, decide_eq_true hq⟩, rfl⟩
    · apply List.mem_map.2
      refine ⟨(q, fs.isDir q, compute_git_tags gs roots q,
        if fs.isDir q then [Item.dummy] else []), ?_, rfl⟩
      apply List.mem_filterMap.2
      refine ⟨(process_new fs gs roots q).1, ?_, by rw [process_new_fst]; rfl⟩
      apply (mem_cont_fst_iff fs gs roots recur parts1 startEvs newPaths doSort _).2
      apply List.mem_append.2
      right
      exact List.mem_map.2 ⟨q, List.mem_filter.2 ⟨hq, decide_eq_true hold⟩, rfl⟩

lemma core_some_empty (fs : Fs) (gs : List (Path × StatusMap)) (roots : List Path)
    (recur : Path → List Item → List Item × List Ev) (p : Path) (kids : List Item)
    (hiter : fs.iterdir p = []) :
    reconcile_core fs gs roots recur (some p) kids =
      ((if containsDummy kids then [] else kids) ++ [Item.dummy],
        (if containsDummy kids then [Ev.deleteDummy (some p)] else []) ++
          [Ev.insertDummy (some p)]) := by
  unfold reconcile_core
  dsimp only
  rw [if_pos hiter]

lemma core_some_nonempty (fs : Fs) (gs : List (Path × StatusMap)) (roots : List Path)
    (recur : Path → List Item → List Item × List Ev) (p : Path) (kids : List Item)
    (hiter : fs.iterdir p ≠ []) :
    reconcile_core fs gs roots recur (some p) kids =
      reconcile_cont fs gs roots recur
        ((if containsDummy kids then [] else kids).filterMap nodeParts)
        (if containsDummy kids then [Ev.deleteDummy (some p)] else [])
        (fs.iterdir p) true := by
  unfold reconcile_core
  dsimp only
  rw [if_neg hiter]

/-- The wrapper call unfolds to one `reconcile_core` step whose recursive
calls run with one unit of fuel less (still enough for every materialized
subtree). -/
lemma open_eq_core (fs : Fs) (gs : List (Path × StatusMap)) (roots : List Path)
    (dirPath : Option Path) (kids : List Item) :
    open_and_refresh_directory fs gs roots dirPath kids =
      reconcile_core fs gs roots
        (fun q => open_and_refresh_directory_fuel fs gs roots (itemsSize kids - 1) (some q))
        dirPath kids := by
  unfold open_and_refresh_directory
  obtain ⟨m, hm⟩ := itemsSize_eq_succ kids
  rw [hm, Nat.add_sub_cancel]
  rfl

/-! ### C4: an empty listing leaves stale children next to the placeholder -/

/-- C4 is right and the code is wrong: when a materialized directory is
reconciled while its filesystem listing has become empty, the source
inserts the placeholder and returns before the deletion loop, so the old
real child rows stay in place next to the placeholder and the
materialized children do not mirror the (empty) listing.  This theorem
evaluates the reconciliation at such a failing input: a directory row for
`/r` still showing the stale file row `/r/f` while `/r` is empty on
disk.  The next reconciliation of this node fails the source's own
`assert not self.tag_has('dummy', item_id)` in `get_path` when building
`path2id`. -/
theorem empty_listing_keeps_stale_children :
    (open_and_refresh_directory [] [] [["r"]] (some ["r"])
        [Item.node ["r", "f"] false [] []]).1 =
      [Item.node ["r", "f"] false [] [], Item.dummy] ∧
    Fs.iterdir ([] : Fs) ["r"] = [] := by
  constructor
  · have hsz : itemsSize [Item.node ["r", "f"] false [] []] = 4 := by simp [itemsSize]
    unfold open_and_refresh_directory
    rw [hsz]
    rfl
  · rfl

/-! ### C6: children order -/

lemma cont_fst_sorted (fs : Fs) (gs : List (Path × StatusMap)) (roots : List Path)
    (recur : Path → List Item → List Item × List Ev)
    (parts1 : List (Path × Bool × List GStat × List Item)) (startEvs : List Ev)
    (newPaths : List Path) :
    ((reconcile_cont fs gs roots recur parts1 startEvs newPaths true).1).Pairwise keyLE := by
  unfold reconcile_cont
  dsimp only
  exact List.sorted_insertionSort keyLE _

/-- C6, counterexample: a materialized directory whose filesystem listing
has become empty is not reordered — the source returns before the `move`
loop — so children that were out of order stay out of order, with the
placeholder appended after them. -/
theorem empty_listing_children_stay_unsorted :
    (open_and_refresh_directory [] [] [["r"]] (some ["r"])
        [Item.node ["r", "b"] false [GStat.ignored] [],
          Item.node ["r", "a"] false [GStat.added] []]).1 =
      [Item.node ["r", "b"] false [GStat.ignored] [],
        Item.node ["r", "a"] false [GStat.added] [], Item.dummy] ∧
    ¬ ([Item.node ["r", "b"] false [GStat.ignored] [],
        Item.node ["r", "a"] false [GStat.added] [],
        Item.dummy] : List Item).Pairwise keyLE := by
  constructor
  · have hsz : itemsSize
        [Item.node ["r", "b"] false [GStat.ignored] [],
          Item.node ["r", "a"] false [GStat.added] []] = 7 := by
      simp [itemsSize]
    unfold open_and_refresh_directory
    rw [hsz]
    rfl
  · intro h
    have hba := (List.pairwise_cons.1 h).1
      (Item.node ["r", "a"] false [GStat.added] []) (by simp)
    revert hba
    decide

/-- C6 (amended): after reconciling a materialized directory whose
filesystem listing is nonempty, the children are ordered ascending by
`sorting_key` — status rank Added, Modified, MergeConflict, None,
Untracked, Ignored; then Directory (1) before File (2); then the path
string — and concretely, children with statuses [Ignored, Added, None]
and kinds [File, Directory, Directory] come out Added first, then the
None directory, then the Ignored file.  (When the listing is empty the
source returns before the reorder loop, leaving the previous children in
their old order with the placeholder appended.) -/
theorem reconcile_children_sorted :
    (∀ (fs : Fs) (gs : List (Path × StatusMap)) (roots : List Path) (p : Path)
        (kids : List Item), fs.iterdir p ≠ [] →
      ((open_and_refresh_directory fs gs roots (some p) kids).1).Pairwise keyLE) ∧
    (open_and_refresh_directory
        [⟨["r", "b"], true⟩, ⟨["r", "c"], true⟩, ⟨["r", "a"], false⟩]
        [(["r"], [(["r", "a"], GStat.ignored), (["r", "b"], GStat.added)])]
        [["r"]] (some ["r"]) [Item.dummy]).1 =
      [Item.node ["r", "b"] true [GStat.added] [Item.dummy],
        Item.node ["r", "c"] true [] [Item.dummy],
        Item.node ["r", "a"] false [GStat.ignored] []] := by
  constructor
  · intro fs gs roots p kids hiter
    rw [open_eq_core, core_some_nonempty fs gs roots _ p kids hiter]
    exact cont_fst_sorted fs gs roots _ _ _ _
  · have h1 : itemsSize [Item.dummy] = 3 := by simp [itemsSize]
    unfold open_and_refresh_directory
    rw [h1]
    rfl

/-- Witness for `reconcile_children_sorted`: the claim's own example has
a nonempty listing and its reconciled children come out in key order. -/
theorem reconcile_children_sorted_witness :
    Fs.iterdir [⟨["r", "b"], true⟩, ⟨["r", "c"], true⟩, ⟨["r", "a"], false⟩] ["r"] ≠ [] ∧
    ((open_and_refresh_directory
        [⟨["r", "b"], true⟩, ⟨["r", "c"], true⟩, ⟨["r", "a"], false⟩]
        [(["r"], [(["r", "a"], GStat.ignored), (["r", "b"], GStat.added)])]
        [["r"]] (some ["r"]) [Item.dummy]).1).Pairwise keyLE :=
  ⟨by decide,
    reconcile_children_sorted.1
      [⟨["r", "b"], true⟩, ⟨["r", "c"], true⟩, ⟨["r", "a"], false⟩]
      [(["r"], [(["r", "a"], GStat.ignored), (["r", "b"], GStat.added)])]
      [["r"]] ["r"] [Item.dummy] (by decide)⟩

/-! ### C5: idempotence of reconciliation -/

/-- What holds of a child list just reconciled against directory `p`: an
empty listing shows exactly the placeholder; otherwise the children are
real rows whose paths are exactly the listing, ordered by `sorting_key`,
each row's git tag set agrees (as a set) with the computed one, and every
materialized child directory is itself reconciled. -/
def Reconciled (fs : Fs) (gs : List (Path × StatusMap)) (roots : List Path)
    (p : Path) (l : List Item) : Prop :=
  if fs.iterdir p = [] then l = [Item.dummy]
  else
    (∀ it ∈ l, it.isDummy = false) ∧
    (∀ q : Path, q ∈ (l.filterMap nodeParts).map (·.1) ↔ q ∈ fs.iterdir p) ∧
    l.Pairwise keyLE ∧
    (∀ x ∈ l.filterMap nodeParts,
      listSetEq x.2.2.1 (compute_git_tags gs roots x.1) = true ∧
      (x.2.1 = true → containsDummy x.2.2.2 = false →
        Reconciled fs gs roots x.1 x.2.2.2))
termination_by itemsSize l
decreasing_by exact itemsSize_parts_lt l x (by assumption)

lemma Reconciled_empty (fs : Fs) (gs : List (Path × StatusMap)) (roots : List Path)
    (p : Path) (l : List Item) (hiter : fs.iterdir p = []) :
    Reconciled fs gs roots p l ↔ l = [Item.dummy] := by
  rw [Reconciled]
  rw [if_pos hiter]

lemma Reconciled_nonempty (fs : Fs) (gs : List (Path × StatusMap)) (roots : List Path)
    (p : Path) (l : List Item) (hiter : ¬ fs.iterdir p = []) :
    Reconciled fs gs roots p l ↔
      ((∀ it ∈ l, it.isDummy = false) ∧
        (∀ q : Path, q ∈ (l.filterMap nodeParts).map (·.1) ↔ q ∈ fs.iterdir p) ∧
        l.Pairwise keyLE ∧
        (∀ x ∈ l.filterMap nodeParts,
          listSetEq x.2.2.1 (compute_git_tags gs roots x.1) = true ∧
          (x.2.1 = true → containsDummy x.2.2.2 = false →
            Reconciled fs gs roots x.1 x.2.2.2))) := by
  rw [Reconciled]
  rw [if_neg hiter]

lemma itemsSize_parts_lt_ite (kids : List Item) (x : Path × Bool × List GStat × List Item)
    (hx : x ∈ (if containsDummy kids then [] else kids).filterMap nodeParts) :
    itemsSize x.2.2.2 < itemsSize kids := by
  by_cases h : containsDummy kids = true
  · rw [if_pos h] at hx
    simp at hx
  · rw [if_neg h] at hx
    exact itemsSize_parts_lt kids x hx

/-- The configurations on which `open_and_refresh_directory` stays inside
its own assertions: no reconciled directory holds real child rows while
its filesystem listing is empty (see the C4 finding — on such a node the
empty-listing early return leaves stale rows next to the placeholder and
the next pass fails `get_path`'s placeholder assertion). -/
def SafeKids (fs : Fs) (p : Path) (kids : List Item) : Prop :=
  (fs.iterdir p = [] → (if containsDummy kids then [] else kids) = []) ∧
  (∀ x ∈ (if containsDummy kids then [] else kids).filterMap nodeParts,
    x.2.1 = true → containsDummy x.2.2.2 = false → SafeKids fs x.1 x.2.2.2)
termination_by itemsSize kids
decreasing_by exact itemsSize_parts_lt_ite kids x (by assumption)

/-- One `reconcile_core` pass on a directory establishes `Reconciled`,
provided the listing is nonempty or the row shows only the placeholder,
and the recursive calls establish it on every materialized child
directory. -/
lemma core_establishes (fs : Fs) (gs : List (Path × StatusMap)) (roots : List Path)
    (recur : Path → List Item → List Item × List Ev) (p : Path) (kids : List Item)
    (hsafe0 : fs.iterdir p = [] → (if containsDummy kids then [] else kids) = [])
    (hrec : ∀ x ∈ ((if containsDummy kids then [] else kids).filterMap nodeParts),
      x.2.1 = true → containsDummy x.2.2.2 = false →
      Reconciled fs gs roots x.1 (recur x.1 x.2.2.2).1) :
    Reconciled fs gs roots p (reconcile_core fs gs roots recur (some p) kids).1 := by
  by_cases hiter : fs.iterdir p = []
  · rw [core_some_empty fs gs roots recur p kids hiter, hsafe0 hiter]
    exact (Reconciled_empty fs gs roots p _ hiter).2 rfl
  · rw [core_some_nonempty fs gs roots recur p kids hiter,
      Reconciled_nonempty fs gs roots p _ hiter]
    refine ⟨?_, ?_, ?_, ?_⟩
    · intro it hit
      rcases List.mem_append.1 ((mem_cont_fst_iff fs gs roots recur _ _ _ _ it).1 hit)
        with hold | hnew
      · rcases List.mem_map.1 hold with ⟨y, _, heq⟩
        obtain ⟨g, k, hform⟩ := process_old_fst gs roots recur y
        rw [← heq, hform]
        rfl
      · rcases List.mem_map.1 hnew with ⟨r, _, heq⟩
        rw [← heq, process_new_fst]
        rfl
    · exact cont_fst_paths fs gs roots recur _ _ _ _
    · exact cont_fst_sorted fs gs roots recur _ _ _
    · intro x hx
      rcases List.mem_filterMap.1 hx with ⟨it, hit, hparts⟩
      rcases List.mem_append.1 ((mem_cont_fst_iff fs gs roots recur _ _ _ _ it).1 hit)
        with hold | hnew
      · rcases List.mem_map.1 hold with ⟨y, hy, heq⟩
        have hy1 : y ∈ (if containsDummy kids then [] else kids).filterMap nodeParts :=
          (List.mem_filter.1 hy).1
        by_cases hcond : (y.2.1 && !(containsDummy y.2.2.2)) = true
        · have hit_eq : (process_old gs roots recur y).1 =
              Item.node y.1 y.2.1
                (if listSetEq y.2.2.1 (compute_git_tags gs roots y.1) then y.2.2.1
                 else compute_git_tags gs roots y.1)
                (recur y.1 y.2.2.2).1 := by
            unfold process_old
            dsimp only
            rw [if_pos hcond]
          rw [← heq, hit_eq] at hparts
          simp only [nodeParts, Option.some.injEq] at hparts
          rw [← hparts]
          constructor
          · by_cases hkeep : listSetEq y.2.2.1 (compute_git_tags gs roots y.1) = true
            · simp [hkeep]
            · simp [hkeep, listSetEq_refl]
          · intro _ _
            have hcond' := hcond
            rw [Bool.and_eq_true] at hcond'
            exact hrec y hy1 hcond'.1 (by simpa using hcond'.2)
        · have hit_eq : (process_old gs roots recur y).1 =
              Item.node y.1 y.2.1
                (if listSetEq y.2.2.1 (compute_git_tags gs roots y.1) then y.2.2.1
                 else compute_git_tags gs roots y.1)
                y.2.2.2 := by
            unfold process_old
            dsimp only
            rw [if_neg hcond]
          rw [← heq, hit_eq] at hparts
          simp only [nodeParts, Option.some.injEq] at hparts
          rw [← hparts]
          constructor
          · by_cases hkeep : listSetEq y.2.2.1 (compute_git_tags gs roots y.1) = true
            · simp [hkeep]
            · simp [hkeep, listSetEq_refl]
          · intro hdir hcd
            exfalso
            apply hcond
            rw [hdir, hcd]
            rfl
      · rcases List.mem_map.1 hnew with ⟨r, _, heq⟩
        rw [← heq, process_new_fst] at hparts
        simp only [nodeParts, Option.some.injEq] at hparts
        rw [← hparts]
        constructor
        · exact listSetEq_refl _
        · intro hdir hcd
          exfalso
          simp only at hdir hcd
          rw [if_pos hdir] at hcd
          simp [containsDummy, Item.isDummy] at hcd

/-- Any sufficiently fueled reconciliation pass on a safe configuration
leaves the directory in a `Reconciled` state. -/
lemma reconcile_establishes (fs : Fs) (gs : List (Path × StatusMap)) (roots : List Path) :
    ∀ (n : Nat) (p : Path) (kids : List Item), itemsSize kids ≤ n →
      SafeKids fs p kids →
      Reconciled fs gs roots p
        ((open_and_refresh_directory_fuel fs gs roots n (some p) kids).1) := by
  intro n
  induction n with
  | zero =>
    intro p kids h _
    have := one_le_itemsSize kids
    omega
  | succ m ih =>
    intro p kids h hsafe
    rw [SafeKids] at hsafe
    show Reconciled fs gs roots p
      ((reconcile_core fs gs roots
        (fun q => open_and_refresh_directory_fuel fs gs roots m (some q)) (some p) kids).1)
    apply core_establishes fs gs roots _ p kids hsafe.1
    intro x hx hdir hcd
    apply ih
    · have hlt := itemsSize_parts_lt_ite kids x hx
      omega
    · exact hsafe.2 x hx hdir hcd

/-- On a `Reconciled` child list whose paths already match the listing,
the shared continuation changes nothing and emits no events. -/
lemma cont_noop (fs : Fs) (gs : List (Path × StatusMap)) (roots : List Path)
    (recur : Path → List Item → List Item × List Ev)
    (l : List Item) (newPaths : List Path)
    (hnd : ∀ it ∈ l, it.isDummy = false)
    (hpaths : ∀ q : Path, q ∈ (l.filterMap nodeParts).map (·.1) ↔ q ∈ newPaths)
    (hsort : l.Pairwise keyLE)
    (hproc : ∀ x ∈ l.filterMap nodeParts,
      process_old gs roots recur x = (Item.node x.1 x.2.1 x.2.2.1 x.2.2.2, ([] : List Ev))) :
    reconcile_cont fs gs roots recur (l.filterMap nodeParts) [] newPaths true = (l, []) := by
  unfold reconcile_cont
  dsimp only
  have hdel : ((l.filterMap nodeParts).map (·.1)).filter
      (fun q => decide (q ∉ newPaths)) = [] := by
    rw [List.filter_eq_nil_iff]
    intro q hq
    have := (hpaths q).1 hq
    simp [this]
  have hadd : newPaths.filter
      (fun q => decide (q ∉ (l.filterMap nodeParts).map (·.1))) = [] := by
    rw [List.filter_eq_nil_iff]
    intro q hq
    have := (hpaths q).2 hq
    simp [this]
  have hsurv : (l.filterMap nodeParts).filter (fun x => decide (x.1 ∈ newPaths)) =
      l.filterMap nodeParts := by
    rw [List.filter_eq_self]
    intro x hxp
    have hmem : x.1 ∈ newPaths := (hpaths x.1).1 (List.mem_map.2 ⟨x, hxp, rfl⟩)
    simpa using hmem
  rw [hdel, hadd, hsurv, List.map_congr_left hproc]
  have h1 : ((l.filterMap nodeParts).map
      (fun x => (Item.node x.1 x.2.1 x.2.2.1 x.2.2.2, ([] : List Ev)))).map (·.1) = l := by
    rw [List.map_map]
    exact rebuild_of_nodummy l hnd
  have h3 : (((l.filterMap nodeParts).map
      (fun x => (Item.node x.1 x.2.1 x.2.2.1 x.2.2.2, ([] : List Ev)))).map (·.2)).flatten =
      ([] : List Ev) := by
    rw [List.map_map, List.flatten_eq_nil_iff]
    intro x hx
    rcases List.mem_map.1 hx with ⟨_, _, rfl⟩
    rfl
  rw [h1, h3]
  simp [List.Sorted.insertionSort_eq hsort]

/-- On a `Reconciled` state a further reconciliation pass is a no-op: the
children are returned unchanged and the only events are the deletion and
re-insertion of the placeholder when the directory's listing is empty. -/
lemma reconcile_noop (fs : Fs) (gs : List (Path × StatusMap)) (roots : List Path) :
    ∀ (n : Nat) (p : Path) (l : List Item), itemsSize l ≤ n →
      Reconciled fs gs roots p l →
      open_and_refresh_directory_fuel fs gs roots n (some p) l =
        (l, if fs.iterdir p = []
            then [Ev.deleteDummy (some p), Ev.insertDummy (some p)] else []) := by
  intro n
  induction n with
  | zero =>
    intro p l hsz _
    have := one_le_itemsSize l
    omega
  | succ m ih =>
    intro p l hsz hrc
    by_cases hiter : fs.iterdir p = []
    · have hl : l = [Item.dummy] := (Reconciled_empty fs gs roots p l hiter).1 hrc
      subst hl
      rw [if_pos hiter]
      show reconcile_core fs gs roots _ (some p) [Item.dummy] = _
      rw [core_some_empty fs gs roots _ p _ hiter]
      simp [containsDummy, Item.isDummy]
    · obtain ⟨hnd, hpaths, hsort, hx⟩ := (Reconciled_nonempty fs gs roots p l hiter).1 hrc
      have hcd : containsDummy l = false := containsDummy_eq_false l hnd
      rw [if_neg hiter]
      show reconcile_core fs gs roots
        (fun q => open_and_refresh_directory_fuel fs gs roots m (some q)) (some p) l = (l, [])
      rw [core_some_nonempty fs gs roots _ p l hiter]
      have e1 : (if containsDummy l = true then ([] : List Item) else l) = l := by
        rw [hcd]
        simp
      have e2 : (if containsDummy l = true then [Ev.deleteDummy (some p)]
          else ([] : List Ev)) = [] := by
        rw [hcd]
        simp
      rw [e1, e2]
      refine cont_noop fs gs roots _ l (fs.iterdir p) hnd hpaths hsort ?_
      intro x hxp
      obtain ⟨hset, hrcx⟩ := hx x hxp
      unfold process_old
      dsimp only
      by_cases hcond : (x.2.1 && !(containsDummy x.2.2.2)) = true
      · rw [if_pos hcond]
        have hcond' := hcond
        rw [Bool.and_eq_true] at hcond'
        have hdir : x.2.1 = true := hcond'.1
        have hcdx : containsDummy x.2.2.2 = false := by
          have h2 := hcond'.2
          simpa using h2
        have hrec2 : Reconciled fs gs roots x.1 x.2.2.2 := hrcx hdir hcdx
        have hlt := itemsSize_parts_lt l x hxp
        have hres := ih x.1 x.2.2.2 (by omega) hrec2
        have hne : ¬ fs.iterdir x.1 = [] := by
          intro hemp
          have hd := (Reconciled_empty fs gs roots x.1 x.2.2.2 hemp).1 hrec2
          rw [hd] at hcdx
          simp [containsDummy, Item.isDummy] at hcdx
        rw [hres, if_neg hne]
        simp [hset]
      · rw [if_neg hcond]
        simp [hset]

/-- C5 (amended): reconciling a directory twice in succession with the
same filesystem, StatusMaps and project roots — on a configuration where
no reconciled directory holds real children while its listing is empty,
the situation of the C4 bug on which the source instead fails its
placeholder assertion — leaves the tree exactly as the first call left
it: same children, same tags, same order; and the second call performs
no insertions, deletions or tag writes, except that a directory whose
listing is empty has its placeholder deleted and immediately re-inserted
(a state-neutral churn). -/
theorem reconcile_idempotent (fs : Fs) (gs : List (Path × StatusMap)) (roots : List Path)
    (p : Path) (kids : List Item) (hsafe : SafeKids fs p kids) :
    open_and_refresh_directory fs gs roots (some p)
        ((open_and_refresh_directory fs gs roots (some p) kids).1) =
      ((open_and_refresh_directory fs gs roots (some p) kids).1,
        if fs.iterdir p = []
        then [Ev.deleteDummy (some p), Ev.insertDummy (some p)] else []) := by
  have hrec := reconcile_establishes fs gs roots (itemsSize kids) p kids (le_refl _) hsafe
  exact reconcile_noop fs gs roots _ p _ (le_refl _) hrec

/-- Witness for `reconcile_idempotent`: a freshly inserted (placeholder
only) directory row over an empty filesystem is a safe configuration;
the second call reproduces the placeholder with exactly the churn
events. -/
theorem reconcile_idempotent_witness :
    SafeKids [] ["r"] [Item.dummy] ∧
    open_and_refresh_directory [] [] [["r"]] (some ["r"])
        ((open_and_refresh_directory [] [] [["r"]] (some ["r"]) [Item.dummy]).1) =
      ((open_and_refresh_directory [] [] [["r"]] (some ["r"]) [Item.dummy]).1,
        if Fs.iterdir [] ["r"] = []
        then [Ev.deleteDummy (some ["r"]), Ev.insertDummy (some ["r"])] else []) := by
  have hsafe : SafeKids [] ["r"] [Item.dummy] := by
    rw [SafeKids]
    constructor
    · intro _
      rfl
    · intro x hx
      simp [containsDummy, Item.isDummy] at hx
  exact ⟨hsafe, reconcile_idempotent [] [] [["r"]] ["r"] [Item.dummy] hsafe⟩

/-- C5, counterexample: reconciling an empty directory twice — no
filesystem or StatusMap change — still mutates the tree on the second
call: the placeholder row is deleted and a fresh one inserted, so the
second call does not produce zero insertions and deletions. -/
theorem empty_dir_second_reconcile_churns_placeholder :
    (open_and_refresh_directory [] [] [["r"]] (some ["r"])
        ((open_and_refresh_directory [] [] [["r"]] (some ["r"]) [Item.dummy]).1)).2 =
      [Ev.deleteDummy (some ["r"]), Ev.insertDummy (some ["r"])] ∧
    ([Ev.deleteDummy (some ["r"]), Ev.insertDummy (some ["r"])] : List Ev) ≠ [] := by
  constructor
  · have h1 : itemsSize [Item.dummy] = 3 := by simp [itemsSize]
    have hinner : (open_and_refresh_directory [] [] [["r"]] (some ["r"]) [Item.dummy]).1
        = [Item.dummy] := by
      unfold open_and_refresh_directory
      rw [h1]
      rfl
    rw [hinner]
    unfold open_and_refresh_directory
    rw [h1]
    rfl
  · decide

end Porcupine
